import Mathlib

/-!
Shallow embedding of `qlearning.py` (`Robot` class): a 6x6 grid world, a
Monte Carlo random-walk explorer, an epsilon-greedy Q-learning trainer, and
a greedy path extractor over the trained Q-table.

Conventions of the embedding:
  * Python ints become `ℤ` (grid coordinates, rewards) or `ℕ` (list
    indices, state indices, which are nonnegative throughout the program).
  * Python floats become `ℚ`: the Q-values and the learning parameters
    are only combined by field operations and comparisons.
  * The ambient random source (`random.uniform`, `random.choice`) becomes
    explicit data: each `random.uniform(0, 1)` call reads a rational
    drawn from a stream, each `random.choice(l)` call reads a natural
    `k` from a stream and picks `l[k % len(l)]`.
  * Unbounded `while` loops become fuel-indexed recursions returning
    `Option`, `none` marking that the fuel ran out before the loop exited.
-/

namespace QRobot

/-- Terrain grid from `Robot.__init__` (6 rows of 6 labels). -/
def terrain : List (List Char) :=
  [['W', 'M', 'M', 'L', 'L', 'W'],
   ['W', 'W', 'L', 'M', 'L', 'L'],
   ['M', 'L', 'L', 'M', 'L', 'M'],
   ['M', 'L', 'L', 'L', 'L', 'L'],
   ['M', 'L', 'M', 'L', 'M', 'L'],
   ['E', 'W', 'W', 'W', 'W', 'W']]

/-- Lookup `self.rewards.get(label, 0)` for the dict
`{'M': -300, 'W': -500, 'L': 10, 'E': 1000}`. -/
def reward_of (c : Char) : ℤ :=
  if c = 'M' then -300
  else if c = 'W' then -500
  else if c = 'L' then 10
  else if c = 'E' then 1000
  else 0

/-- The derived `R_matrix`: `rewards.get(terrain[i][j], 0)` for each cell. -/
def R_matrix : List (List ℤ) := terrain.map (fun row => row.map reward_of)

/-- Start cell `(0, 3)` (row A, column 4). -/
def start_state : ℤ × ℤ := (0, 3)

/-- End cell `(5, 0)` (row F, column 1). -/
def end_state : ℤ × ℤ := (5, 0)

/-- Membership in the key set of `self.state_indices`, which holds exactly
the pairs `(i, j)` with `i, j ∈ range(6)`; also the bound check
`0 <= r < 6 and 0 <= c < 6` used by `get_next_state_mc`. -/
def in_grid (p : ℤ × ℤ) : Prop :=
  0 ≤ p.1 ∧ p.1 < 6 ∧ 0 ≤ p.2 ∧ p.2 < 6

instance (p : ℤ × ℤ) : Decidable (in_grid p) := by
  unfold in_grid; infer_instance

/-- Lookup `self.state_indices.get(p, d)`: the dict maps every in-grid
`(i, j)` to `i * 6 + j`, and the lookup falls back to `d` off the grid. -/
def state_indices_get (p : ℤ × ℤ) (d : ℕ) : ℕ :=
  if in_grid p then (p.1 * 6 + p.2).toNat else d

/-- Encoding direction of `self.state_indices` (line 26): `i * 6 + j`,
on the in-grid key set where both coordinates are naturals. -/
def encode (p : ℕ × ℕ) : ℕ := p.1 * 6 + p.2

/-- Decoding used throughout the source (lines 122, 161, 192, 224):
`(index // 6, index % 6)`. -/
def decode (s : ℕ) : ℕ × ℕ := (s / 6, s % 6)

/-- Raw moved position of `get_next_state` (lines 122-126), before the
dict lookup falls back to the current state. -/
def moved_pos (state_index action_index : ℕ) : ℤ × ℤ :=
  let row : ℤ := (state_index / 6 : ℕ)
  let col : ℤ := (state_index % 6 : ℕ)
  if action_index = 0 then (row - 1, col)
  else if action_index = 1 then (row + 1, col)
  else if action_index = 2 then (row, col - 1)
  else if action_index = 3 then (row, col + 1)
  else (row, col)

/-- `Robot.get_next_state`: move, then
`self.state_indices.get((row, col), state_index)`. -/
def get_next_state (state_index action_index : ℕ) : ℕ :=
  state_indices_get (moved_pos state_index action_index) state_index

/-- `Robot.get_possible_actions`: the bound checks append 0 (up), 1 (down),
2 (left), 3 (right) in this order. -/
def get_possible_actions (state_index : ℕ) : List ℕ :=
  let row := state_index / 6
  let col := state_index % 6
  (if 0 < row then [0] else []) ++ (if row < 5 then [1] else []) ++
    (if 0 < col then [2] else []) ++ (if col < 5 then [3] else [])

/-- The end state's linear index, `self.state_indices[self.end_state]`. -/
def end_state_index : ℕ := state_indices_get end_state 0

/-- The Q-matrix entry `Q[s][a]` (reads of `self.Q_matrix`). -/
def qval (Q : List (List ℚ)) (s a : ℕ) : ℚ := (Q.getD s []).getD a 0

/-- The zero-initialized 36x4 `Q_matrix` from `Robot.__init__`. -/
def Q_matrix_init : List (List ℚ) := List.replicate 36 (List.replicate 4 0)

/-- Python `max` over a nonempty list of floats; 0 on the empty list (the
source only applies it to nonempty rows, or guards with `if ... else 0`). -/
def pymax : List ℚ → ℚ
  | [] => 0
  | x :: xs => xs.foldl max x

/-- Python `max(xs, key=f)` on the nonempty list `x :: xs`: scan left to
right, replacing the current best only on a strictly larger key, so ties
keep the earliest element. -/
def py_max_by {α β : Type*} [LinearOrder β] (f : α → β) (x : α) (xs : List α) : α :=
  xs.foldl (fun b y => if f b < f y then y else b) x

/-- Left fold of `max` over the keys of a list, from a seed value. -/
def fold_max {α β : Type*} [LinearOrder β] (f : α → β) (m : β) (xs : List α) : β :=
  xs.foldl (fun m y => max m (f y)) m

/-- One Q-table update (lines 192-198 of `q_learning`): read the reward of
the entered cell from `R_matrix`, take the max of the next state's row
(`max(next_q_values) if next_q_values else 0`), and overwrite
`Q[current][action]` with the Q-learning target. -/
def q_update (Q : List (List ℚ)) (current_state_index action_index next_state_index : ℕ)
    (alpha gamma : ℚ) : List (List ℚ) :=
  let reward : ℚ :=
    ((R_matrix.getD (next_state_index / 6) []).getD (next_state_index % 6) 0 : ℤ)
  let next_q_values := Q.getD next_state_index []
  let max_next_q_value : ℚ := if next_q_values = [] then 0 else pymax next_q_values
  let current_q_value := qval Q current_state_index action_index
  Q.set current_state_index
    ((Q.getD current_state_index []).set action_index
      (current_q_value + alpha * (reward + gamma * max_next_q_value - current_q_value)))

/-- `Robot.get_next_state_eg`: with the uniform draw `u` below `epsilon`
pick a uniformly random action, else collect every action attaining the
row maximum and pick uniformly among them; `k` is the draw consumed by
`random.choice`, which indexes the list as `k % length`. -/
def get_next_state_eg (Q : List (List ℚ)) (state_index : ℕ) (epsilon u : ℚ) (k : ℕ) :
    ℕ × ℕ :=
  let action_index :=
    if u < epsilon then (List.range 4).getD (k % 4) 0
    else
      let qrow := Q.getD state_index []
      let max_q_value := pymax qrow
      let best_actions := (qrow.enum.filter (fun aq => decide (aq.2 = max_q_value))).map Prod.fst
      let pool := if best_actions = [] then List.range 4 else best_actions
      pool.getD (k % pool.length) 0
  (get_next_state state_index action_index, action_index)

/-- Episode start candidates (line 187):
`[state for state in range(36) if state != end_state_index]`. -/
def episode_start_states : List ℕ :=
  (List.range 36).filter (fun s => decide (s ≠ end_state_index))

/-- Inner step loop of `q_learning` (`for step in range(max_steps)`), with
the remaining step count as the recursion measure. `ru`/`rc` are the
uniform and choice streams and `iu`/`ic` the positions consumed so far. -/
def q_episode (epsilon alpha gamma : ℚ) (ru : ℕ → ℚ) (rc : ℕ → ℕ) :
    ℕ → List (List ℚ) → ℕ → ℕ → ℕ → List (List ℚ) × ℕ × ℕ
  | 0, Q, _, iu, ic => (Q, iu, ic)
  | steps + 1, Q, current_state_index, iu, ic =>
    if current_state_index = end_state_index then (Q, iu, ic)
    else
      let na := get_next_state_eg Q current_state_index epsilon (ru iu) (rc ic)
      q_episode epsilon alpha gamma ru rc steps
        (q_update Q current_state_index na.2 na.1 alpha gamma) na.1 (iu + 1) (ic + 1)

/-- Episode loop of `q_learning` (`for episode in range(num_episodes)`):
each episode picks its start state with `random.choice` over
`episode_start_states` and then runs the step loop. -/
def q_learning_go (epsilon alpha gamma : ℚ) (ru : ℕ → ℚ) (rc : ℕ → ℕ) (max_steps : ℕ) :
    ℕ → List (List ℚ) → ℕ → ℕ → List (List ℚ)
  | 0, Q, _, _ => Q
  | episodes + 1, Q, iu, ic =>
    let start := episode_start_states.getD (rc ic % episode_start_states.length) 0
    let r := q_episode epsilon alpha gamma ru rc max_steps Q start iu (ic + 1)
    q_learning_go epsilon alpha gamma ru rc max_steps episodes r.1 r.2.1 r.2.2

/-- `Robot.q_learning` on an explicit starting table `Q0` (the method
mutates `self.Q_matrix` in place; the model threads it). -/
def q_learning (Q0 : List (List ℚ)) (num_episodes : ℕ) (epsilon alpha gamma : ℚ)
    (max_steps : ℕ) (ru : ℕ → ℚ) (rc : ℕ → ℕ) : List (List ℚ) :=
  q_learning_go epsilon alpha gamma ru rc max_steps num_episodes Q0 0 0

/-- Reward of a cell, `self.R_matrix[p.1][p.2]`. Every position indexed by
the program is in-grid, where the `toNat` casts are exact. -/
def r_at (p : ℤ × ℤ) : ℤ := (R_matrix.getD p.1.toNat []).getD p.2.toNat 0

/-- The `actions` dict of `get_next_state_mc`, in insertion order. -/
def mc_actions : List (String × ℤ × ℤ) :=
  [("up", (-1, 0)), ("down", (1, 0)), ("left", (0, -1)), ("right", (0, 1))]

/-- The `possible_actions` list of `get_next_state_mc`: the names whose
moves stay on the grid, in dict iteration order. -/
def mc_possible_actions (p : ℤ × ℤ) : List String :=
  (mc_actions.filter (fun ad => decide (in_grid (p.1 + ad.2.1, p.2 + ad.2.2)))).map Prod.fst

/-- `Robot.get_next_state_mc`: pick a valid action at random and move, or
stay in place when no action is valid; `k` is the `random.choice` draw. -/
def get_next_state_mc (p : ℤ × ℤ) (k : ℕ) : ℤ × ℤ :=
  let possible := mc_possible_actions p
  if possible = [] then p
  else
    let chosen := possible.getD (k % possible.length) ""
    let d := (mc_actions.lookup chosen).getD (0, 0)
    (p.1 + d.1, p.2 + d.2)

/-- The inner `while current_state != self.end_state` walk of
`monte_carlo_exploration`, with fuel: each iteration moves via
`get_next_state_mc`, adds the entered cell's reward, and appends the cell
to the route. `random.choice` consumes a draw only when the valid-action
list is nonempty, so the stream offset advances only then. -/
def mc_walk (rho : ℕ → ℕ) :
    ℕ → ℕ → ℤ × ℤ → List (ℤ × ℤ) → ℤ → Option (List (ℤ × ℤ) × ℤ × ℕ)
  | 0, _, _, _, _ => none
  | fuel + 1, off, current_state, route, total_reward =>
    if current_state = end_state then some (route, total_reward, off)
    else
      let consumed := if mc_possible_actions current_state = [] then 0 else 1
      let next_state := get_next_state_mc current_state (rho off)
      mc_walk rho fuel (off + consumed) next_state (route ++ [next_state])
        (total_reward + r_at next_state)

/-- The list of walk outcomes of the first `n` simulations, each started
as in the source with `route = [start_state]` and `total_reward = 0`,
threading the stream offset from one walk to the next. -/
def mc_walks (rho : ℕ → ℕ) (fuel : ℕ) : ℕ → ℕ → Option (List (List (ℤ × ℤ) × ℤ) × ℕ)
  | 0, off => some ([], off)
  | n + 1, off =>
    match mc_walk rho fuel off start_state [start_state] 0 with
    | none => none
    | some (route, total, off1) =>
      match mc_walks rho fuel n off1 with
      | none => none
      | some (ws, off2) => some ((route, total) :: ws, off2)

/-- Best-route accumulator of `monte_carlo_exploration`:
`none` stands for the initial `(None, float('-inf'))` pair, and a new walk
replaces the best exactly when `total_reward > highest_reward`. -/
def best_step (best : Option (List (ℤ × ℤ) × ℤ)) (w : List (ℤ × ℤ) × ℤ) :
    Option (List (ℤ × ℤ) × ℤ) :=
  match best with
  | none => some w
  | some b => if b.2 < w.2 then some w else some b

/-- Folding the best-route accumulator over a list of walk outcomes. -/
def best_fold (best : Option (List (ℤ × ℤ) × ℤ)) (ws : List (List (ℤ × ℤ) × ℤ)) :
    Option (List (ℤ × ℤ) × ℤ) :=
  ws.foldl best_step best

/-- The largest cumulative reward among a list of walk outcomes. -/
def max_reward : List (List (ℤ × ℤ) × ℤ) → ℤ
  | [] => 0
  | w :: t => fold_max Prod.snd w.2 t

/-- Reward of an optional best walk, with `⊥` for the initial
`float('-inf')`. -/
def best_reward : Option (List (ℤ × ℤ) × ℤ) → WithBot ℤ
  | none => ⊥
  | some w => (w.2 : WithBot ℤ)

/-- Simulation loop of `monte_carlo_exploration`: run `n` walks in order,
folding the best-route accumulator over their outcomes. -/
def mc_loop (rho : ℕ → ℕ) (fuel : ℕ) :
    ℕ → ℕ → Option (List (ℤ × ℤ) × ℤ) → Option (Option (List (ℤ × ℤ) × ℤ) × ℕ)
  | 0, off, best => some (best, off)
  | n + 1, off, best =>
    match mc_walk rho fuel off start_state [start_state] 0 with
    | none => none
    | some (route, total, off1) => mc_loop rho fuel n off1 (best_step best (route, total))

/-- `Robot.monte_carlo_exploration` with `n` simulations over the choice
stream `rho`, fuel-bounded; the outer `some` carries the final stream
offset alongside the `(best_route, highest_reward)` accumulator. -/
def monte_carlo_exploration (rho : ℕ → ℕ) (fuel n : ℕ) :
    Option (Option (List (ℤ × ℤ) × ℤ) × ℕ) :=
  mc_loop rho fuel n 0 none

/-- One selection of `greedy_path` (lines 216-223): pair every possible
action with its next state and take the Python `max` keyed by the current
row's Q-values; `none` is the `if not possible_actions` branch. -/
def greedy_step (Q : List (List ℚ)) (state_index : ℕ) : Option (ℕ × ℕ) :=
  let q_values := Q.getD state_index []
  let possible_actions :=
    (get_possible_actions state_index).map (fun a => (a, get_next_state state_index a))
  match possible_actions with
  | [] => none
  | p :: ps => some (py_max_by (fun an => q_values.getD an.1 0) p ps)

/-- Decoded position appended to the greedy route (line 224):
`(index // 6, index % 6)` as a pair of ints. -/
def decode_posZ (s : ℕ) : ℤ × ℤ := ((s / 6 : ℕ), (s % 6 : ℕ))

/-- The `while` loop of `greedy_path`, with fuel: stop at the end state,
break out on an empty action list (the print-and-break branch, which
returns the route and reward gathered so far with no error marker), else
move greedily, append the entered position, and add its reward. -/
def greedy_path_aux (Q : List (List ℚ)) :
    ℕ → ℕ → List (ℤ × ℤ) → ℤ → List (ℤ × ℤ) × ℤ
  | 0, _, path, total => (path, total)
  | fuel + 1, current_state_index, path, total =>
    if current_state_index = end_state_index then (path, total)
    else
      match greedy_step Q current_state_index with
      | none => (path, total)
      | some an =>
        greedy_path_aux Q fuel an.2 (path ++ [decode_posZ an.2])
          (total + r_at (decode_posZ an.2))

/-- `Robot.greedy_path`: start at the start state's index with the route
`[self.start_state]` and zero reward. -/
def greedy_path (Q : List (List ℚ)) (fuel : ℕ) : List (ℤ × ℤ) × ℤ :=
  greedy_path_aux Q fuel (state_indices_get start_state 0) [start_state] 0

/-- A concrete choice stream steering the Monte Carlo walk straight to the
goal: five times down, three times left. -/
def guide_stream : ℕ → ℕ := fun k => [0, 1, 1, 1, 1, 1, 1, 1].getD k 0

/-- The route the guided walk takes from (0,3) to (5,0). -/
def guide_route : List (ℤ × ℤ) :=
  [(0, 3), (1, 3), (2, 3), (3, 3), (4, 3), (5, 3), (5, 2), (5, 1), (5, 0)]

/-- A concrete Q-table for the update-rule instance: row 0 holds the prior
value 4 at action 0, and row 3 (the next state, an 'L' cell of reward 10)
has maximum value 20. -/
def Q_c1 : List (List ℚ) :=
  [[4, 0, 0, 0], [0, 0, 0, 0], [0, 0, 0, 0], [20, 7, 0, 0]]

/-- An all-zero uniform stream. -/
def u_stream0 : ℕ → ℚ := fun _ => 0

/-- An all-zero choice stream. -/
def c_stream0 : ℕ → ℕ := fun _ => 0

/-- C2: the state indexing is a bijection between in-grid positions and
indices in [0, 35]: decode after encode and encode after decode are both
the identity on their respective ranges. -/
theorem state_indexing_bijection :
    (∀ r c : ℕ, r ≤ 5 → c ≤ 5 → decode (encode (r, c)) = (r, c)) ∧
      (∀ i : ℕ, i < 36 → encode (decode i) = i) := by
  constructor
  · have h : ∀ r : ℕ, r < 6 → ∀ c : ℕ, c < 6 → decode (encode (r, c)) = (r, c) := by decide
    intro r c hr hc
    exact h r (Nat.lt_succ_of_le hr) c (Nat.lt_succ_of_le hc)
  · decide

/-- C2 witness: a concrete round trip through both directions. -/
theorem state_indexing_bijection_witness :
    decode (encode (2, 4)) = (2, 4) ∧ encode (decode 17) = 17 :=
  ⟨state_indexing_bijection.1 2 4 (by decide) (by decide),
   state_indexing_bijection.2 17 (by decide)⟩

/-- C3: for every state index in [0, 35] and action index in [0, 3], the
returned state decodes to a row and column in [0, 5] (its index stays
below 36), and whenever the raw moved position leaves the grid the
function returns the input state index unchanged (a self-loop). -/
theorem get_next_state_bounded :
    ∀ s : ℕ, s < 36 → ∀ a : ℕ, a < 4 →
      get_next_state s a < 36 ∧
        (decode (get_next_state s a)).1 ≤ 5 ∧
        (decode (get_next_state s a)).2 ≤ 5 ∧
        (¬ in_grid (moved_pos s a) → get_next_state s a = s) := by
  decide

/-- C3 witness: at the corner state 0 (position (0,0)), action 0 (up)
leaves the grid and self-loops, and the result is in range. -/
theorem get_next_state_bounded_witness :
    get_next_state 0 0 < 36 ∧
      (decode (get_next_state 0 0)).1 ≤ 5 ∧
      (decode (get_next_state 0 0)).2 ≤ 5 ∧
      (¬ in_grid (moved_pos 0 0) → get_next_state 0 0 = 0) :=
  get_next_state_bounded 0 (by decide) 0 (by decide)

/-- Reading a just-written list cell gives the written value. -/
theorem getD_set_self {α : Type*} (l : List α) (i : ℕ) (x d : α) (h : i < l.length) :
    (l.set i x).getD i d = x := by
  induction l generalizing i with
  | nil => simp at h
  | cons y ys ih =>
    cases i with
    | zero => rfl
    | succ j => exact ih j (Nat.lt_of_succ_lt_succ h)

/-- Writing one list cell leaves every other cell unchanged. -/
theorem getD_set_ne {α : Type*} (l : List α) (i j : ℕ) (x d : α) (h : i ≠ j) :
    (l.set i x).getD j d = l.getD j d := by
  induction l generalizing i j with
  | nil => rfl
  | cons y ys ih =>
    cases i with
    | zero =>
      cases j with
      | zero => exact absurd rfl h
      | succ j => rfl
    | succ i =>
      cases j with
      | zero => rfl
      | succ j => exact ih i j (fun hij => h (congrArg Nat.succ hij))

/-- C1: a Q-learning training step rewrites `Q[current][action]` to exactly
`Q[current][action] + alpha * (reward + gamma * maxNext − Q[current][action])`,
with `reward` the entered cell's reward and `maxNext` the maximum of the
next state's action-values, and changes no other table entry. -/
theorem q_update_exact (Q : List (List ℚ)) (cur act next : ℕ) (alpha gamma : ℚ)
    (hcur : cur < Q.length) (hact : act < (Q.getD cur []).length) :
    qval (q_update Q cur act next alpha gamma) cur act
      = qval Q cur act
        + alpha * ((r_at (decode_posZ next) : ℚ) + gamma * pymax (Q.getD next [])
            - qval Q cur act)
    ∧ ∀ s a : ℕ, ¬(s = cur ∧ a = act) →
        qval (q_update Q cur act next alpha gamma) s a = qval Q s a := by
  have hrw : (r_at (decode_posZ next) : ℚ)
      = ((R_matrix.getD (next / 6) []).getD (next % 6) 0 : ℤ) := by
    simp only [r_at, decode_posZ, Int.toNat_natCast]
  have hmax : (if Q.getD next [] = [] then (0 : ℚ) else pymax (Q.getD next []))
      = pymax (Q.getD next []) := by
    by_cases h : Q.getD next [] = []
    · rw [if_pos h, h]; rfl
    · rw [if_neg h]
  constructor
  · show ((Q.set cur _).getD cur []).getD act 0 = _
    rw [getD_set_self _ _ _ _ hcur, getD_set_self _ _ _ _ hact, hrw, hmax]
  · intro s a hsa
    by_cases hs : s = cur
    · subst hs
      have ha : act ≠ a := fun h => hsa ⟨rfl, h.symm⟩
      show ((Q.set s _).getD s []).getD a 0 = _
      rw [getD_set_self _ _ _ _ hcur, getD_set_ne _ _ _ _ _ ha]
      rfl
    · show ((Q.set cur _).getD s []).getD a 0 = _
      rw [getD_set_ne _ _ _ _ _ (fun h => hs h.symm)]
      rfl

/-- C1 witness: with prior value 4, reward 10, gamma 0.9, alpha 0.5 and a
next-state maximum of 20, the entry becomes 4 + 0.5 * (10 + 0.9*20 − 4) = 16
and the neighbouring entry is untouched. -/
theorem q_update_exact_witness :
    (0 < Q_c1.length ∧ 0 < (Q_c1.getD 0 []).length) ∧
      (qval (q_update Q_c1 0 0 3 (1/2) (9/10)) 0 0
          = qval Q_c1 0 0
            + (1/2) * ((r_at (decode_posZ 3) : ℚ) + (9/10) * pymax (Q_c1.getD 3 [])
                - qval Q_c1 0 0)
        ∧ ∀ s a : ℕ, ¬(s = 0 ∧ a = 0) →
            qval (q_update Q_c1 0 0 3 (1/2) (9/10)) s a = qval Q_c1 s a) ∧
      qval (q_update Q_c1 0 0 3 (1/2) (9/10)) 0 0 = 16 :=
  ⟨⟨by decide, by decide⟩,
   q_update_exact Q_c1 0 0 3 (1/2) (9/10) (by decide) (by decide),
   by
     have h1 : r_at (decode_posZ 3) = 10 := by decide
     rw [(q_update_exact Q_c1 0 0 3 (1/2) (9/10) (by decide) (by decide)).1, h1]
     norm_num [qval, Q_c1, pymax]⟩

/-- The seed is below the folded maximum. -/
theorem le_fold_max {α β : Type*} [LinearOrder β] (f : α → β) (m : β) (xs : List α) :
    m ≤ fold_max f m xs := by
  induction xs generalizing m with
  | nil => exact le_refl m
  | cons y ys ih => exact le_trans (le_max_left m (f y)) (ih (max m (f y)))

/-- Every key in the list is below the folded maximum. -/
theorem mem_le_fold_max {α β : Type*} [LinearOrder β] (f : α → β) (m : β) (xs : List α) :
    ∀ y ∈ xs, f y ≤ fold_max f m xs := by
  induction xs generalizing m with
  | nil => intro y hy; cases hy
  | cons z zs ih =>
    intro y hy
    rcases List.mem_cons.mp hy with h | h
    · subst h; exact le_trans (le_max_right m (f y)) (le_fold_max f (max m (f y)) zs)
    · exact ih (max m (f z)) y h

/-- Unfolding one step of the folded maximum through the scan's comparison. -/
theorem fold_max_cons {α β : Type*} [LinearOrder β] (f : α → β) (x y : α) (ys : List α) :
    fold_max f (f x) (y :: ys) = fold_max f (f (if f x < f y then y else x)) ys := by
  show fold_max f (max (f x) (f y)) ys = _
  by_cases h : f x < f y
  · rw [if_pos h, max_eq_right h.le]
  · rw [if_neg h, max_eq_left (not_lt.mp h)]

/-- Python `max(l, key=f)` returns the first element of the list whose key
attains the maximum key: ties keep the earliest element. -/
theorem py_max_by_find {α β : Type*} [LinearOrder β] (f : α → β) (x : α) (xs : List α) :
    (x :: xs).find? (fun y => decide (f y = fold_max f (f x) xs))
      = some (py_max_by f x xs) := by
  induction xs generalizing x with
  | nil => exact List.find?_cons_of_pos _ (by simp [fold_max])
  | cons y ys ih =>
    by_cases h : f x < f y
    · have hM : fold_max f (f x) (y :: ys) = fold_max f (f y) ys := by
        rw [fold_max_cons, if_pos h]
      have hp : py_max_by f x (y :: ys) = py_max_by f y ys := by
        show py_max_by f (if f x < f y then y else x) ys = _
        rw [if_pos h]
      rw [hM, hp]
      have hxlt : f x < fold_max f (f y) ys := lt_of_lt_of_le h (le_fold_max f (f y) ys)
      rw [List.find?_cons_of_neg _ (by simp [hxlt.ne])]
      exact ih y
    · have hM : fold_max f (f x) (y :: ys) = fold_max f (f x) ys := by
        rw [fold_max_cons, if_neg h]
      have hp : py_max_by f x (y :: ys) = py_max_by f x ys := by
        show py_max_by f (if f x < f y then y else x) ys = _
        rw [if_neg h]
      rw [hM, hp]
      by_cases hx : f x = fold_max f (f x) ys
      · have hx2 := ih x
        rw [List.find?_cons_of_pos _ (by simp only [decide_eq_true_eq]; exact hx)] at hx2
        rw [List.find?_cons_of_pos _ (by simp only [decide_eq_true_eq]; exact hx)]
        exact hx2
      · have hfy : f y ≤ f x := not_lt.mp h
        have hxlt : f x < fold_max f (f x) ys :=
          lt_of_le_of_ne (le_fold_max f (f x) ys) hx
        have hylt : f y < fold_max f (f x) ys := lt_of_le_of_lt hfy hxlt
        have hx2 := ih x
        rw [List.find?_cons_of_neg _ (by simp [hxlt.ne])] at hx2
        rw [List.find?_cons_of_neg _ (by simp [hxlt.ne]),
          List.find?_cons_of_neg _ (by simp [hylt.ne])]
        exact hx2

/-- The scanned maximum is an element of the list. -/
theorem py_max_by_mem {α β : Type*} [LinearOrder β] (f : α → β) (x : α) (xs : List α) :
    py_max_by f x xs ∈ x :: xs :=
  List.mem_of_find?_eq_some (py_max_by_find f x xs)

/-- The scanned maximum's key is the folded maximum key. -/
theorem py_max_by_key {α β : Type*} [LinearOrder β] (f : α → β) (x : α) (xs : List α) :
    f (py_max_by f x xs) = fold_max f (f x) xs := by
  have h := List.find?_some (py_max_by_find f x xs)
  simpa using h

/-- The scanned maximum's key dominates every key in the list. -/
theorem py_max_by_le {α β : Type*} [LinearOrder β] (f : α → β) (x : α) (xs : List α) :
    ∀ y ∈ x :: xs, f y ≤ f (py_max_by f x xs) := by
  intro y hy
  rw [py_max_by_key f x xs]
  rcases List.mem_cons.mp hy with h | h
  · subst h; exact le_fold_max f (f y) xs
  · exact mem_le_fold_max f (f x) xs y h

/-- On every state index of the grid the possible-action list is nonempty
and holds exactly the actions whose transition leaves the state. -/
theorem possible_actions_spec :
    ∀ s : ℕ, s < 36 →
      get_possible_actions s ≠ [] ∧
        get_possible_actions s
          = (List.range 4).filter (fun b => decide (get_next_state s b ≠ s)) := by
  decide

/-- C10: for every state index in [0, 35] the possible-action list is
nonempty and equals exactly the actions whose transition returns a
different state; and the Monte Carlo step's valid-action list is nonempty
at every in-grid position, so the greedy empty-action break and the Monte
Carlo stay-in-place fallback are unreachable. -/
theorem possible_actions_nonempty_and_exact :
    (∀ s : ℕ, s < 36 →
        get_possible_actions s ≠ [] ∧
          get_possible_actions s
            = (List.range 4).filter (fun b => decide (get_next_state s b ≠ s))) ∧
      ∀ r c : ℤ, in_grid (r, c) → mc_possible_actions (r, c) ≠ [] := by
  constructor
  · exact possible_actions_spec
  · intro r c h
    have h1 : 0 ≤ r := h.1
    have h2 : r < 6 := h.2.1
    have h3 : 0 ≤ c := h.2.2.1
    have h4 : c < 6 := h.2.2.2
    interval_cases r <;> interval_cases c <;> decide

/-- C10 witness: at the corner state 0 both action sets are nonempty and
the possible-action list matches the non-self-loop transitions. -/
theorem possible_actions_nonempty_and_exact_witness :
    (get_possible_actions 0 ≠ [] ∧
        get_possible_actions 0
          = (List.range 4).filter (fun b => decide (get_next_state 0 b ≠ 0))) ∧
      mc_possible_actions (0, 0) ≠ [] :=
  ⟨possible_actions_nonempty_and_exact.1 0 (by decide),
   possible_actions_nonempty_and_exact.2 0 0 (by decide)⟩

/-- C4: the greedy extractor considers exactly the in-bounds actions
(those whose transition is not a self-loop), picks an action attaining the
maximum Q-value of the current row, breaking ties in favor of the first
such action in the order up, down, left, right, and a loop step appends
the reached position to the route and adds its reward to the total. -/
theorem greedy_step_selects (Q : List (List ℚ)) (s a next : ℕ)
    (hs : s < 36) (hstep : greedy_step Q s = some (a, next)) :
    get_possible_actions s
        = (List.range 4).filter (fun b => decide (get_next_state s b ≠ s)) ∧
      next = get_next_state s a ∧
      a ∈ get_possible_actions s ∧
      (∀ b ∈ get_possible_actions s, qval Q s b ≤ qval Q s a) ∧
      (get_possible_actions s).find? (fun b => decide (qval Q s b = qval Q s a))
        = some a ∧
      ∀ fuel : ℕ, ∀ path : List (ℤ × ℤ), ∀ total : ℤ, s ≠ end_state_index →
        greedy_path_aux Q (fuel + 1) s path total
          = greedy_path_aux Q fuel next (path ++ [decode_posZ next])
              (total + r_at (decode_posZ next)) := by
  have hne : get_possible_actions s ≠ [] := (possible_actions_spec s hs).1
  cases hpl : (get_possible_actions s).map (fun b => (b, get_next_state s b)) with
  | nil => exact absurd (List.map_eq_nil_iff.mp hpl) hne
  | cons p ps =>
    have hstep2 : greedy_step Q s
        = some (py_max_by (fun an => (Q.getD s []).getD an.1 0) p ps) := by
      simp only [greedy_step, hpl]
    rw [hstep] at hstep2
    have hpm : py_max_by (fun an => (Q.getD s []).getD an.1 0) p ps = (a, next) :=
      (Option.some.inj hstep2).symm
    have hmem : (a, next) ∈ (get_possible_actions s).map
        (fun b => (b, get_next_state s b)) := by
      rw [hpl]
      exact hpm ▸ py_max_by_mem _ p ps
    obtain ⟨b, hbmem, hgb⟩ := List.mem_map.mp hmem
    have hba : b = a := congrArg Prod.fst hgb
    subst hba
    have hnext : next = get_next_state s b := (congrArg Prod.snd hgb).symm
    refine ⟨(possible_actions_spec s hs).2, hnext, hbmem, ?_, ?_, ?_⟩
    · intro b2 hb2
      have hb2p : (b2, get_next_state s b2) ∈ p :: ps := by
        rw [← hpl]
        exact List.mem_map_of_mem _ hb2
      have hle := py_max_by_le (fun an => (Q.getD s []).getD an.1 0) p ps _ hb2p
      rw [hpm] at hle
      exact hle
    · have hkey : (Q.getD s []).getD b 0
          = fold_max (fun an : ℕ × ℕ => (Q.getD s []).getD an.1 0)
              ((Q.getD s []).getD p.1 0) ps := by
        have h := py_max_by_key (fun an => (Q.getD s []).getD an.1 0) p ps
        rw [hpm] at h
        exact h
      have hfind := py_max_by_find (fun an => (Q.getD s []).getD an.1 0) p ps
      rw [hpm, ← hpl, List.find?_map] at hfind
      obtain ⟨c, hc, hgc⟩ := Option.map_eq_some'.mp hfind
      have hca : c = b := congrArg Prod.fst hgc
      subst hca
      rw [← hkey] at hc
      exact hc
    · intro fuel path total hend
      show (if s = end_state_index then (path, total)
        else match greedy_step Q s with
          | none => (path, total)
          | some an =>
            greedy_path_aux Q fuel an.2 (path ++ [decode_posZ an.2])
              (total + r_at (decode_posZ an.2))) = _
      rw [if_neg hend, hstep]

/-- C4 witness: on the all-zero table at the start state's index 3 the
greedy selection takes the first possible action 1 (down) to state 9. -/
theorem greedy_step_selects_witness :
    (3 < 36 ∧ greedy_step Q_matrix_init 3 = some (1, 9)) ∧
      (get_possible_actions 3
          = (List.range 4).filter (fun b => decide (get_next_state 3 b ≠ 3)) ∧
        9 = get_next_state 3 1 ∧
        1 ∈ get_possible_actions 3 ∧
        (∀ b ∈ get_possible_actions 3,
          qval Q_matrix_init 3 b ≤ qval Q_matrix_init 3 1) ∧
        (get_possible_actions 3).find?
            (fun b => decide (qval Q_matrix_init 3 b = qval Q_matrix_init 3 1))
          = some 1 ∧
        ∀ fuel : ℕ, ∀ path : List (ℤ × ℤ), ∀ total : ℤ, 3 ≠ end_state_index →
          greedy_path_aux Q_matrix_init (fuel + 1) 3 path total
            = greedy_path_aux Q_matrix_init fuel 9 (path ++ [decode_posZ 9])
                (total + r_at (decode_posZ 9))) :=
  ⟨⟨by decide, by decide⟩,
   greedy_step_selects Q_matrix_init 3 1 9 (by decide) (by decide)⟩

/-- C6: with epsilon = 0, a uniform draw in [0, 1] never enters the
exploration branch, and when the current row has a strictly unique
maximum the greedy branch's candidate list is that single argmax, so the
selection is independent of both random draws and returns the argmax
action together with its next state. -/
theorem eg_zero_epsilon_deterministic (Q : List (List ℚ)) (s : ℕ)
    (q0 q1 q2 q3 : ℚ) (astar : ℕ)
    (hrow : Q.getD s [] = [q0, q1, q2, q3])
    (hstar : astar < 4)
    (huniq : ∀ b : ℕ, b < 4 → b ≠ astar →
      [q0, q1, q2, q3].getD b 0 < [q0, q1, q2, q3].getD astar 0)
    (u u2 : ℚ) (hu : 0 ≤ u) (hu2 : 0 ≤ u2) (k k2 : ℕ) :
    get_next_state_eg Q s 0 u k = get_next_state_eg Q s 0 u2 k2 ∧
      (get_next_state_eg Q s 0 u k).2 = astar := by
  have key : ∀ u3 : ℚ, 0 ≤ u3 → ∀ k3 : ℕ,
      get_next_state_eg Q s 0 u3 k3 = (get_next_state s astar, astar) := by
    intro u3 hu3 k3
    have hnot : ¬ u3 < 0 := not_lt.mpr hu3
    interval_cases astar
    · have h1 : q1 < q0 := huniq 1 (by norm_num) (by norm_num)
      have h2 : q2 < q0 := huniq 2 (by norm_num) (by norm_num)
      have h3 : q3 < q0 := huniq 3 (by norm_num) (by norm_num)
      simp only [get_next_state_eg, if_neg hnot, hrow, pymax, List.foldl]
      rw [max_eq_left h1.le, max_eq_left h2.le, max_eq_left h3.le]
      simp [List.enum, List.enumFrom, List.filter, List.getD,
        h1.ne, h2.ne, h3.ne, Nat.mod_one]
    · have h0 : q0 < q1 := huniq 0 (by norm_num) (by norm_num)
      have h2 : q2 < q1 := huniq 2 (by norm_num) (by norm_num)
      have h3 : q3 < q1 := huniq 3 (by norm_num) (by norm_num)
      simp only [get_next_state_eg, if_neg hnot, hrow, pymax, List.foldl]
      rw [max_eq_right h0.le, max_eq_left h2.le, max_eq_left h3.le]
      simp [List.enum, List.enumFrom, List.filter, List.getD,
        h0.ne, h2.ne, h3.ne, Nat.mod_one]
    · have h0 : q0 < q2 := huniq 0 (by norm_num) (by norm_num)
      have h1 : q1 < q2 := huniq 1 (by norm_num) (by norm_num)
      have h3 : q3 < q2 := huniq 3 (by norm_num) (by norm_num)
      simp only [get_next_state_eg, if_neg hnot, hrow, pymax, List.foldl]
      rw [max_eq_right (max_le h0.le h1.le), max_eq_left h3.le]
      simp [List.enum, List.enumFrom, List.filter, List.getD,
        h0.ne, h1.ne, h3.ne, Nat.mod_one]
    · have h0 : q0 < q3 := huniq 0 (by norm_num) (by norm_num)
      have h1 : q1 < q3 := huniq 1 (by norm_num) (by norm_num)
      have h2 : q2 < q3 := huniq 2 (by norm_num) (by norm_num)
      simp only [get_next_state_eg, if_neg hnot, hrow, pymax, List.foldl]
      rw [max_eq_right (max_le (max_le h0.le h1.le) h2.le)]
      simp [List.enum, List.enumFrom, List.filter, List.getD,
        h0.ne, h1.ne, h2.ne, Nat.mod_one]
  refine ⟨?_, ?_⟩
  · rw [key u hu k, key u2 hu2 k2]
  · rw [key u hu k]

/-- C6 witness: on a one-row table with unique maximum at action 1, two
different random draw pairs give the same selection, action 1. -/
theorem eg_zero_epsilon_deterministic_witness :
    (([[1, 5, 3, 0]] : List (List ℚ)).getD 0 [] = [1, 5, 3, 0] ∧ 1 < 4 ∧
        (∀ b : ℕ, b < 4 → b ≠ 1 →
          [(1 : ℚ), 5, 3, 0].getD b 0 < [(1 : ℚ), 5, 3, 0].getD 1 0) ∧
        (0 : ℚ) ≤ 0 ∧ (0 : ℚ) ≤ 1) ∧
      (get_next_state_eg [[1, 5, 3, 0]] 0 0 0 7
          = get_next_state_eg [[1, 5, 3, 0]] 0 0 1 3 ∧
        (get_next_state_eg [[1, 5, 3, 0]] 0 0 0 7).2 = 1) :=
  ⟨⟨by decide, by decide, by decide, by decide, by decide⟩,
   eg_zero_epsilon_deterministic [[1, 5, 3, 0]] 0 1 5 3 0 1 (by decide) (by decide)
     (by decide) 0 1 (by decide) (by decide) 7 3⟩

/-- Folding the best-route accumulator from a seed walk is the Python
`max` scan keyed by the cumulative reward. -/
theorem best_fold_cons_some (b : List (ℤ × ℤ) × ℤ) (ws : List (List (ℤ × ℤ) × ℤ)) :
    best_fold (some b) ws = some (py_max_by Prod.snd b ws) := by
  induction ws generalizing b with
  | nil => rfl
  | cons w t ih =>
    show best_fold (if b.2 < w.2 then some w else some b) t
        = some (py_max_by Prod.snd (if b.2 < w.2 then w else b) t)
    by_cases h : b.2 < w.2
    · rw [if_pos h, if_pos h]; exact ih w
    · rw [if_neg h, if_neg h]; exact ih b

/-- The best-route accumulator keeps the first walk attaining the maximum
cumulative reward: later walks replace it only on a strict improvement. -/
theorem best_fold_find (ws : List (List (ℤ × ℤ) × ℤ)) :
    best_fold none ws = ws.find? (fun w => decide (w.2 = max_reward ws)) := by
  cases ws with
  | nil => rfl
  | cons w t =>
    have h1 : best_fold none (w :: t) = some (py_max_by Prod.snd w t) :=
      best_fold_cons_some w t
    rw [h1]
    exact (py_max_by_find Prod.snd w t).symm

/-- The simulation loop is the walk list folded through the best-route
accumulator, with the stream offset threaded along. -/
theorem mc_loop_eq_walks (rho : ℕ → ℕ) (fuel : ℕ) :
    ∀ n off best, mc_loop rho fuel n off best
      = (mc_walks rho fuel n off).map (fun x => (best_fold best x.1, x.2)) := by
  intro n
  induction n with
  | zero => intro off best; rfl
  | succ m ih =>
    intro off best
    simp only [mc_loop, mc_walks]
    cases hw : mc_walk rho fuel off start_state [start_state] 0 with
    | none => rfl
    | some rt =>
      obtain ⟨route, total, off1⟩ := rt
      dsimp only
      rw [ih off1 (best_step best (route, total))]
      cases hws : mc_walks rho fuel m off1 with
      | none => rfl
      | some wso => rfl

/-- A finished walk extends its route accumulator by a suffix whose
rewards account exactly for the reward accumulated beyond the seed. -/
theorem mc_walk_route (rho : ℕ → ℕ) :
    ∀ fuel off cur route total r t o2,
      mc_walk rho fuel off cur route total = some (r, t, o2) →
      ∃ sfx : List (ℤ × ℤ), r = route ++ sfx ∧ t = total + (sfx.map r_at).sum := by
  intro fuel
  induction fuel with
  | zero => intro off cur route total r t o2 h; exact absurd h (by simp [mc_walk])
  | succ f ih =>
    intro off cur route total r t o2 h
    by_cases hc : cur = end_state
    · simp only [mc_walk, if_pos hc, Option.some.injEq, Prod.mk.injEq] at h
      refine ⟨[], ?_, ?_⟩
      · rw [← h.1]; simp
      · rw [← h.2.1]; simp
    · simp only [mc_walk, if_neg hc] at h
      obtain ⟨sfx, hr, ht⟩ := ih _ _ _ _ _ _ _ h
      refine ⟨get_next_state_mc cur (rho off) :: sfx, ?_, ?_⟩
      · rw [hr]; simp
      · rw [ht, List.map_cons, List.sum_cons]
        ring

/-- Every walk outcome of the simulation loop starts at the start state,
does not count the start cell's reward, and accumulates the reward of
every later cell of its route. -/
theorem mc_walks_mem (rho : ℕ → ℕ) (fuel : ℕ) :
    ∀ n off ws o2, mc_walks rho fuel n off = some (ws, o2) →
      ∀ w ∈ ws, w.1.head? = some start_state ∧ w.2 = (w.1.tail.map r_at).sum := by
  intro n
  induction n with
  | zero =>
    intro off ws o2 h w hw
    simp only [mc_walks, Option.some.injEq, Prod.mk.injEq] at h
    rw [← h.1] at hw
    cases hw
  | succ m ih =>
    intro off ws o2 h w hw
    simp only [mc_walks] at h
    cases hw1 : mc_walk rho fuel off start_state [start_state] 0 with
    | none => rw [hw1] at h; cases h
    | some rt =>
      obtain ⟨route, total, off1⟩ := rt
      rw [hw1] at h
      dsimp only at h
      cases hws : mc_walks rho fuel m off1 with
      | none => rw [hws] at h; cases h
      | some wso =>
        obtain ⟨ws1, o3⟩ := wso
        rw [hws] at h
        dsimp only at h
        have hpair := Option.some.inj h
        have hlist : (route, total) :: ws1 = ws := congrArg Prod.fst hpair
        rw [← hlist] at hw
        rcases List.mem_cons.mp hw with hweq | hwmem
        · subst hweq
          obtain ⟨sfx, hr, ht⟩ := mc_walk_route rho fuel off start_state [start_state] 0
            route total off1 hw1
          constructor
          · rw [hr]; rfl
          · rw [ht, hr]; simp
        · exact ih off1 ws1 o3 hws w hwmem

/-- C5: Monte Carlo exploration returns the first walk attaining the
strictly highest cumulative reward (an earlier walk is kept on ties);
every walk starts at (0, 3), the start cell's own reward is not counted,
and the reward of every cell entered afterwards, revisits included, is
accumulated. -/
theorem mc_best_of_walks (rho : ℕ → ℕ) (fuel n : ℕ)
    (ws : List (List (ℤ × ℤ) × ℤ)) (off : ℕ)
    (h : mc_walks rho fuel n 0 = some (ws, off)) :
    monte_carlo_exploration rho fuel n = some (best_fold none ws, off) ∧
      best_fold none ws = ws.find? (fun w => decide (w.2 = max_reward ws)) ∧
      ∀ w ∈ ws, w.1.head? = some start_state ∧ w.2 = (w.1.tail.map r_at).sum := by
  refine ⟨?_, best_fold_find ws, mc_walks_mem rho fuel n 0 ws off h⟩
  show mc_loop rho fuel n 0 none = _
  rw [mc_loop_eq_walks rho fuel n 0 none, h]
  rfl

/-- C5 witness: a single guided walk from (0, 3) to (5, 0) with cumulative
reward -1080, returned as the best of one simulation. -/
theorem mc_best_of_walks_witness :
    mc_walks guide_stream 20 1 0 = some ([(guide_route, -1080)], 8) ∧
      (monte_carlo_exploration guide_stream 20 1
          = some (best_fold none [(guide_route, -1080)], 8) ∧
        best_fold none [(guide_route, -1080)]
          = [(guide_route, -1080)].find?
              (fun w => decide (w.2 = max_reward [(guide_route, -1080)])) ∧
        ∀ w ∈ [(guide_route, -1080)],
          w.1.head? = some start_state ∧ w.2 = (w.1.tail.map r_at).sum) :=
  ⟨by decide, mc_best_of_walks guide_stream 20 1 [(guide_route, -1080)] 8 (by decide)⟩

/-- One-step unfolding of the simulation loop. -/
theorem mc_loop_one (rho : ℕ → ℕ) (fuel k off : ℕ) (best : Option (List (ℤ × ℤ) × ℤ)) :
    mc_loop rho fuel (k + 1) off best
      = match mc_walk rho fuel off start_state [start_state] 0 with
        | none => none
        | some rto => mc_loop rho fuel k rto.2.2 (best_step best (rto.1, rto.2.1)) := by
  cases hw : mc_walk rho fuel off start_state [start_state] 0 with
  | none => simp only [mc_loop, hw]
  | some rt =>
    obtain ⟨r0, t0, o1⟩ := rt
    simp only [mc_loop, hw]

/-- Running one more simulation equals running the previous ones and then
folding a single further walk into the accumulator. -/
theorem mc_loop_succ (rho : ℕ → ℕ) (fuel : ℕ) :
    ∀ n off best, mc_loop rho fuel (n + 1) off best
      = (mc_loop rho fuel n off best).bind (fun x =>
          (mc_walk rho fuel x.2 start_state [start_state] 0).map (fun y =>
            (best_step x.1 (y.1, y.2.1), y.2.2))) := by
  intro n
  induction n with
  | zero =>
    intro off best
    rw [mc_loop_one rho fuel 0 off best]
    have hz : mc_loop rho fuel 0 off best = some (best, off) := rfl
    rw [hz]
    dsimp only [Option.bind]
    cases hw : mc_walk rho fuel off start_state [start_state] 0 with
    | none => rfl
    | some rt => rfl
  | succ m ih =>
    intro off best
    rw [mc_loop_one rho fuel (m + 1) off best, mc_loop_one rho fuel m off best]
    cases hw : mc_walk rho fuel off start_state [start_state] 0 with
    | none => rfl
    | some rt =>
      dsimp only
      exact ih rt.2.2 (best_step best (rt.1, rt.2.1))

/-- Folding one more walk into the accumulator never lowers its reward. -/
theorem best_reward_step (best : Option (List (ℤ × ℤ) × ℤ)) (w : List (ℤ × ℤ) × ℤ) :
    best_reward best ≤ best_reward (best_step best w) := by
  cases best with
  | none => exact bot_le
  | some b =>
    show best_reward (some b) ≤ best_reward (if b.2 < w.2 then some w else some b)
    by_cases h : b.2 < w.2
    · rw [if_pos h]
      show (b.2 : WithBot ℤ) ≤ (w.2 : WithBot ℤ)
      exact_mod_cast h.le
    · rw [if_neg h]

/-- C9: with the same choice stream, the best reward of n + 1 simulations
is at least the best reward of n simulations: the first n walks are
identical and the extra walk replaces the best only when strictly
better. -/
theorem mc_monotone (rho : ℕ → ℕ) (fuel n : ℕ)
    (b1 b2 : Option (List (ℤ × ℤ) × ℤ)) (o1 o2 : ℕ)
    (h1 : monte_carlo_exploration rho fuel n = some (b1, o1))
    (h2 : monte_carlo_exploration rho fuel (n + 1) = some (b2, o2)) :
    best_reward b1 ≤ best_reward b2 := by
  have h2b : (mc_loop rho fuel n 0 none).bind (fun x =>
      (mc_walk rho fuel x.2 start_state [start_state] 0).map (fun y =>
        (best_step x.1 (y.1, y.2.1), y.2.2))) = some (b2, o2) := by
    rw [← mc_loop_succ rho fuel n 0 none]
    exact h2
  rw [show mc_loop rho fuel n 0 none = some (b1, o1) from h1] at h2b
  dsimp only [Option.bind] at h2b
  cases hw : mc_walk rho fuel o1 start_state [start_state] 0 with
  | none => rw [hw] at h2b; cases h2b
  | some y =>
    rw [hw] at h2b
    have hb2 : best_step b1 (y.1, y.2.1) = b2 :=
      congrArg Prod.fst (Option.some.inj h2b)
    rw [← hb2]
    exact best_reward_step b1 (y.1, y.2.1)

/-- C9 witness: zero simulations yield the initial accumulator, one guided
simulation yields reward -1080, and the best reward did not decrease. -/
theorem mc_monotone_witness :
    monte_carlo_exploration guide_stream 20 0 = some (none, 0) ∧
      monte_carlo_exploration guide_stream 20 1
        = some (some (guide_route, -1080), 8) ∧
      best_reward none ≤ best_reward (some (guide_route, -1080)) :=
  ⟨by decide, by decide,
   mc_monotone guide_stream 20 0 none (some (guide_route, -1080)) 0 8
     (by decide) (by decide)⟩

/-- Training one step with epsilon = 2 from the zero table drives the
entry Q[0][0] to -450: the uniform draw 0 is below 2, the random action 0
self-loops at state 0, and the update adds 0.9 * (-500). -/
theorem q_learning_eps2_value :
    qval (q_learning Q_matrix_init 1 2 (9/10) (9/10) 1 u_stream0 c_stream0) 0 0
      = -450 := by
  have h1 : q_learning Q_matrix_init 1 2 (9/10) (9/10) 1 u_stream0 c_stream0
      = q_update Q_matrix_init 0 0 0 (9/10) (9/10) := rfl
  have hr : (R_matrix.getD (0 / 6) []).getD (0 % 6) 0 = -500 := by decide
  have hq : Q_matrix_init.getD 0 [] = [0, 0, 0, 0] := by decide
  rw [h1]
  simp only [qval, q_update]
  rw [getD_set_self _ _ _ _ (by decide), getD_set_self _ _ _ _ (by decide), hq, hr]
  norm_num [pymax, hq, qval]

/-- C8 counterexample: epsilon = 2 lies outside [0, 1], yet the training
call raises nothing, executes a simulation step, and changes the Q-table:
the claimed fail-fast InvalidParameter validation does not exist. -/
theorem no_validation_counterexample :
    ¬((0 : ℚ) ≤ 2 ∧ (2 : ℚ) ≤ 1) ∧
      qval (q_learning Q_matrix_init 1 2 (9/10) (9/10) 1 u_stream0 c_stream0) 0 0
        ≠ qval Q_matrix_init 0 0 := by
  constructor
  · norm_num
  · rw [q_learning_eps2_value]
    have h3 : qval Q_matrix_init 0 0 = 0 := by decide
    rw [h3]
    norm_num

/-- C8 amended: neither call validates its parameters and neither can
fail. A zero episode or simulation count returns the initial state only
because the loop body never runs, and an out-of-range epsilon = 2 still
trains, changing Q[0][0] from 0 to -450 in one step. -/
theorem no_validation_amended (Q0 : List (List ℚ)) (max_steps : ℕ)
    (epsilon alpha gamma : ℚ) (ru : ℕ → ℚ) (rc : ℕ → ℕ) (rho : ℕ → ℕ) (fuel : ℕ) :
    q_learning Q0 0 epsilon alpha gamma max_steps ru rc = Q0 ∧
      monte_carlo_exploration rho fuel 0 = some (none, 0) ∧
      qval (q_learning Q_matrix_init 1 2 (9/10) (9/10) 1 u_stream0 c_stream0) 0 0
        = -450 :=
  ⟨rfl, rfl, q_learning_eps2_value⟩

end QRobot
